import Mathlib

/-!
Shallow embedding of the go-docmd documentation tool.

Go strings are modelled as lists of Unicode scalar values (`GoStr`).  The Go
code indexes strings by byte; every slicing operation the embedded functions
perform cuts at an ASCII position (leading blanks, `'.'`, `'|'`, `'\n'`
boundaries), where byte positions and rune positions coincide, so the rune
model is faithful there.  External collaborators (`go/format`, the
`golang.org/x/tools/go/packages` loader, the file system) are parameters of
the embedded functions; everything else is translated from the source.
-/

namespace GoDocMd

abbrev GoStr := List Char

/-- `unicode.IsSpace` on the `White_Space` code points (used by
`strings.TrimSpace`). -/
def isGoSpace (c : Char) : Bool :=
  (9 ≤ c.val && c.val ≤ 13) || c.val = 32 || c.val = 0x85 || c.val = 0xA0 ||
  c.val = 0x1680 || (0x2000 ≤ c.val && c.val ≤ 0x200A) ||
  c.val = 0x2028 || c.val = 0x2029 || c.val = 0x202F || c.val = 0x205F ||
  c.val = 0x3000

/-- `strings.TrimSpace`. -/
def trimSpace (s : GoStr) : GoStr :=
  ((s.dropWhile isGoSpace).reverse.dropWhile isGoSpace).reverse

/-- `strings.Join` (with a one-character separator). -/
def goJoin (sep : Char) : List GoStr → GoStr
  | [] => []
  | [p] => p
  | p :: q :: ps => p ++ sep :: goJoin sep (q :: ps)

/-- `strings.Split` (with a one-character separator). -/
def goSplit (sep : Char) : GoStr → List GoStr
  | [] => [[]]
  | c :: cs =>
    match goSplit sep cs with
    | [] => [[c]]
    | r :: rs => if c = sep then [] :: r :: rs else (c :: r) :: rs

/-- `leadingWhitespace` from the renderer: the number of leading space or tab
characters of a line. -/
def leadingWhitespace : GoStr → Nat
  | [] => 0
  | c :: cs => if c = ' ' || c = '\t' then leadingWhitespace cs + 1 else 0

/-- The body of the `minIndent` loop of `dedentMarkdown`: skip blank lines,
otherwise keep the smaller indent (`-1` means "no non-blank line seen"). -/
def minIndentStep (acc : Int) (line : GoStr) : Int :=
  if (trimSpace line).isEmpty then acc
  else
    let indent : Int := leadingWhitespace line
    if acc = -1 || indent < acc then indent else acc

/-- `dedentMarkdown` from the renderer: strip the minimum indentation of the
non-blank lines from every line that is long enough. -/
def dedentMarkdown (src : GoStr) : GoStr :=
  let lines := goSplit '\n' src
  let minIndent : Int := lines.foldl minIndentStep (-1)
  if minIndent ≤ 0 then src
  else
    goJoin '\n'
      (lines.map (fun line =>
        if minIndent.toNat ≤ line.length then line.drop minIndent.toNat
        else line))

/-! ### Basic lemmas about the string primitives -/

theorem goSplit_ne_nil (sep : Char) (s : GoStr) : goSplit sep s ≠ [] := by
  cases s with
  | nil => simp [goSplit]
  | cons c cs =>
    simp only [goSplit]
    cases h : goSplit sep cs with
    | nil => simp
    | cons r rs =>
      by_cases hc : c = sep <;> simp [hc]

theorem mem_goSplit_not_mem (sep : Char) (s : GoStr) :
    ∀ p ∈ goSplit sep s, sep ∉ p := by
  induction s with
  | nil => intro p hp; simp [goSplit] at hp; simp [hp]
  | cons c cs ih =>
    intro p hp
    simp only [goSplit] at hp
    cases h : goSplit sep cs with
    | nil => exact absurd h (goSplit_ne_nil sep cs)
    | cons r rs =>
      rw [h] at hp
      have hp' : p ∈ (if c = sep then [] :: r :: rs else (c :: r) :: rs) := hp
      have ihr : sep ∉ r := ih r (by rw [h]; exact List.mem_cons_self r rs)
      by_cases hc : c = sep
      · rw [if_pos hc] at hp'
        rcases List.mem_cons.mp hp' with h1 | h1
        · subst h1; simp
        · exact ih p (by rw [h]; exact h1)
      · rw [if_neg hc] at hp'
        rcases List.mem_cons.mp hp' with h1 | h1
        · subst h1
          intro hm
          rcases List.mem_cons.mp hm with h2 | h2
          · exact hc h2.symm
          · exact ihr h2
        · exact ih p (by rw [h]; exact List.mem_cons_of_mem r h1)

theorem goJoin_goSplit (sep : Char) (s : GoStr) :
    goJoin sep (goSplit sep s) = s := by
  induction s with
  | nil => simp [goSplit, goJoin]
  | cons c cs ih =>
    simp only [goSplit]
    cases h : goSplit sep cs with
    | nil => exact absurd h (goSplit_ne_nil sep cs)
    | cons r rs =>
      rw [h] at ih
      by_cases hc : c = sep
      · subst hc
        simp only [if_pos rfl, goJoin]
        simp [ih]
      · simp only [if_neg hc]
        cases rs with
        | nil => simpa [goJoin] using congrArg (c :: ·) ih
        | cons r2 rs2 => simpa [goJoin] using congrArg (c :: ·) ih

theorem goSplit_sepfree (sep : Char) (p : GoStr) (hp : sep ∉ p) :
    goSplit sep p = [p] := by
  induction p with
  | nil => simp [goSplit]
  | cons c cs ih =>
    have hc : c ≠ sep := fun h => hp (h ▸ List.mem_cons_self c cs)
    have hcs : sep ∉ cs := fun h => hp (List.mem_cons_of_mem c h)
    simp [goSplit, ih hcs, hc]

theorem goSplit_append (sep : Char) (p t : GoStr) (hp : sep ∉ p) :
    goSplit sep (p ++ sep :: t) = p :: goSplit sep t := by
  induction p with
  | nil =>
    simp only [List.nil_append, goSplit]
    cases h : goSplit sep t with
    | nil => exact absurd h (goSplit_ne_nil sep t)
    | cons r rs => simp
  | cons c cs ih =>
    have hc : c ≠ sep := fun h => hp (h ▸ List.mem_cons_self c cs)
    have hcs : sep ∉ cs := fun h => hp (List.mem_cons_of_mem c h)
    have h2 : goSplit sep (cs.append (sep :: t)) = cs :: goSplit sep t := ih hcs
    simp only [List.cons_append, goSplit]
    rw [h2]
    simp [hc]

theorem goSplit_goJoin (sep : Char) (parts : List GoStr)
    (hne : parts ≠ []) (hfree : ∀ p ∈ parts, sep ∉ p) :
    goSplit sep (goJoin sep parts) = parts := by
  induction parts with
  | nil => exact absurd rfl hne
  | cons p ps ih =>
    cases ps with
    | nil =>
      simp only [goJoin]
      exact goSplit_sepfree sep p (hfree p (List.mem_cons_self p []))
    | cons q qs =>
      have h1 : sep ∉ p := hfree p (List.mem_cons_self p _)
      have h2 : ∀ r ∈ q :: qs, sep ∉ r := fun r hr =>
        hfree r (List.mem_cons_of_mem p hr)
      simp only [goJoin]
      rw [goSplit_append sep p _ h1, ih (by simp) h2]

theorem leadingWhitespace_le_length (l : GoStr) :
    leadingWhitespace l ≤ l.length := by
  induction l with
  | nil => simp [leadingWhitespace]
  | cons c cs ih =>
    simp only [leadingWhitespace]
    by_cases h : (c = ' ' || c = '\t') = true
    · simp only [if_pos h, List.length_cons]; omega
    · simp only [if_neg h, List.length_cons]; omega

theorem trimSpace_isEmpty_iff (l : GoStr) :
    (trimSpace l).isEmpty = true ↔ ∀ c ∈ l, isGoSpace c := by
  unfold trimSpace
  rw [List.isEmpty_iff, List.reverse_eq_nil_iff, List.dropWhile_eq_nil_iff]
  constructor
  · intro h c hc
    have hsplit := List.takeWhile_append_dropWhile (p := isGoSpace) (l := l)
    rw [← hsplit] at hc
    rcases List.mem_append.mp hc with h1 | h1
    · exact List.mem_takeWhile_imp h1
    · exact h c (List.mem_reverse.mpr h1)
  · intro h c hc
    exact h c ((List.dropWhile_sublist isGoSpace).mem (List.mem_reverse.mp hc))

theorem takeWhile_leadingWhitespace (k : Nat) (l : GoStr)
    (h : k ≤ leadingWhitespace l) : ∀ c ∈ l.take k, isGoSpace c := by
  induction k generalizing l with
  | zero => simp
  | succ n ih =>
    cases l with
    | nil => simp
    | cons c cs =>
      simp only [leadingWhitespace] at h
      by_cases hc : (c = ' ' || c = '\t') = true
      · rw [if_pos hc] at h
        intro d hd
        rcases List.mem_cons.mp (by simpa [List.take_succ_cons] using hd) with h1 | h1
        · subst h1
          rcases Bool.or_eq_true_iff.mp hc with h2 | h2
          · rw [decide_eq_true_eq] at h2; subst h2; decide
          · rw [decide_eq_true_eq] at h2; subst h2; decide
        · exact ih cs (by omega) d h1
      · rw [if_neg hc] at h; omega

theorem leadingWhitespace_drop (m : Nat) (l : GoStr)
    (h : m ≤ leadingWhitespace l) :
    leadingWhitespace (l.drop m) + m = leadingWhitespace l := by
  induction m generalizing l with
  | zero => simp
  | succ n ih =>
    cases l with
    | nil => simp [leadingWhitespace] at h
    | cons c cs =>
      simp only [leadingWhitespace] at h
      by_cases hc : (c = ' ' || c = '\t') = true
      · rw [if_pos hc] at h
        have hn : n ≤ leadingWhitespace cs := by omega
        have := ih cs hn
        simp only [List.drop_succ_cons, leadingWhitespace, if_pos hc]
        omega
      · rw [if_neg hc] at h; omega

/-! ### Characterizing the minimum-indent computation of `dedentMarkdown` -/

/-- The minimum of `leadingWhitespace` over the non-blank lines (`none` when
every line is blank).  This is the specification-level reading of the
`minIndent` loop. -/
def minNonblankIndent : List GoStr → Option Nat
  | [] => none
  | l :: ls =>
    if (trimSpace l).isEmpty then minNonblankIndent ls
    else
      match minNonblankIndent ls with
      | none => some (leadingWhitespace l)
      | some m => some (if leadingWhitespace l ≤ m then leadingWhitespace l else m)

def obMin : Option Nat → Option Nat → Option Nat
  | none, b => b
  | some a, none => some a
  | some a, some b => some (if a ≤ b then a else b)

def encMin : Option Nat → Int
  | none => -1
  | some n => n

theorem obMin_assoc (a b c : Option Nat) :
    obMin (obMin a b) c = obMin a (obMin b c) := by
  cases a <;> cases b <;> cases c <;>
    simp only [obMin, Option.some.injEq] <;>
    (try rfl) <;> (try (split_ifs <;> omega))

theorem minNonblankIndent_cons_nonblank (l : GoStr) (ls : List GoStr)
    (h : ¬(trimSpace l).isEmpty = true) :
    minNonblankIndent (l :: ls) =
      obMin (some (leadingWhitespace l)) (minNonblankIndent ls) := by
  simp only [minNonblankIndent, if_neg h]
  cases minNonblankIndent ls <;> simp [obMin]

theorem minIndentStep_enc (acc : Option Nat) (line : GoStr) :
    minIndentStep (encMin acc) line =
      encMin (obMin acc (if (trimSpace line).isEmpty then none
        else some (leadingWhitespace line))) := by
  by_cases hb : (trimSpace line).isEmpty = true
  · simp [minIndentStep, hb]
    cases acc <;> simp [obMin]
  · simp only [minIndentStep, if_neg hb, if_neg (by exact hb)]
    cases acc with
    | none => simp [encMin, obMin]
    | some a =>
      simp only [encMin, obMin, Bool.or_eq_true, decide_eq_true_eq]
      have hne : ¬((a : Int) = -1) := by omega
      by_cases hlt : (leadingWhitespace line : Int) < (a : Int)
      · rw [if_pos (Or.inr hlt),
          if_neg (show ¬(a ≤ leadingWhitespace line) by omega)]
      · rw [if_neg (show ¬((a : Int) = -1 ∨ (leadingWhitespace line : Int) < a) by
          rintro (h | h)
          · exact hne h
          · exact hlt h),
          if_pos (show a ≤ leadingWhitespace line by omega)]

theorem foldl_minIndentStep (lines : List GoStr) (acc : Option Nat) :
    lines.foldl minIndentStep (encMin acc) =
      encMin (obMin acc (minNonblankIndent lines)) := by
  induction lines generalizing acc with
  | nil => cases acc <;> simp [minNonblankIndent, obMin]
  | cons l ls ih =>
    simp only [List.foldl_cons]
    rw [minIndentStep_enc acc l]
    rw [ih]
    by_cases hb : (trimSpace l).isEmpty = true
    · simp only [if_pos hb, minNonblankIndent, hb]
      cases acc <;> simp [obMin]
    · rw [if_neg hb, minNonblankIndent_cons_nonblank l ls hb, ← obMin_assoc]

/-- What a stripped line is: drop `m` characters when the line is long
enough, otherwise leave it untouched. -/
def stripIndent (m : Nat) (line : GoStr) : GoStr :=
  if m ≤ line.length then line.drop m else line

theorem stripIndent_zero (line : GoStr) : stripIndent 0 line = line := by
  simp [stripIndent]

theorem dedentMarkdown_eq (src : GoStr) :
    dedentMarkdown src =
      match minNonblankIndent (goSplit '\n' src) with
      | none => src
      | some 0 => src
      | some (m + 1) =>
        goJoin '\n' ((goSplit '\n' src).map (stripIndent (m + 1))) := by
  simp only [dedentMarkdown]
  have hfold : (goSplit '\n' src).foldl minIndentStep (-1) =
      encMin (minNonblankIndent (goSplit '\n' src)) := by
    have := foldl_minIndentStep (goSplit '\n' src) none
    simpa [encMin, obMin] using this
  rw [hfold]
  cases h : minNonblankIndent (goSplit '\n' src) with
  | none => simp [encMin]
  | some m =>
    cases m with
    | zero => simp [encMin]
    | succ k =>
      have hpos : ¬ (encMin (some (k + 1)) ≤ 0) := by simp [encMin]
      rw [if_neg hpos]
      simp only [encMin, Int.toNat_natCast]
      rfl

theorem minNonblankIndent_eq_none_iff (lines : List GoStr) :
    minNonblankIndent lines = none ↔ ∀ l ∈ lines, (trimSpace l).isEmpty := by
  induction lines with
  | nil => simp [minNonblankIndent]
  | cons l ls ih =>
    by_cases hb : (trimSpace l).isEmpty = true
    · rw [minNonblankIndent, if_pos hb, ih]
      constructor
      · intro h x hx
        rcases List.mem_cons.mp hx with h1 | h1
        · subst h1; exact hb
        · exact h x h1
      · intro h x hx
        exact h x (List.mem_cons_of_mem l hx)
    · rw [minNonblankIndent_cons_nonblank l ls hb]
      constructor
      · intro h
        exfalso
        cases hmm : minNonblankIndent ls <;> simp [hmm, obMin] at h
      · intro h; exact absurd (h l (List.mem_cons_self l ls)) hb

theorem minNonblankIndent_spec (lines : List GoStr) (m : Nat)
    (h : minNonblankIndent lines = some m) :
    (∃ l ∈ lines, ¬(trimSpace l).isEmpty = true ∧ leadingWhitespace l = m) ∧
    (∀ l ∈ lines, ¬(trimSpace l).isEmpty = true → m ≤ leadingWhitespace l) := by
  induction lines generalizing m with
  | nil => simp [minNonblankIndent] at h
  | cons l ls ih =>
    by_cases hb : (trimSpace l).isEmpty = true
    · rw [minNonblankIndent, if_pos hb] at h
      obtain ⟨⟨w, hw, hwnb, hwlw⟩, hlb⟩ := ih m h
      refine ⟨⟨w, List.mem_cons_of_mem l hw, hwnb, hwlw⟩, ?_⟩
      intro x hx hxnb
      rcases List.mem_cons.mp hx with h1 | h1
      · exact absurd (h1 ▸ hb) hxnb
      · exact hlb x h1 hxnb
    · rw [minNonblankIndent_cons_nonblank l ls hb] at h
      cases hmm : minNonblankIndent ls with
      | none =>
        rw [hmm] at h
        simp only [obMin, Option.some.injEq] at h
        subst h
        refine ⟨⟨l, List.mem_cons_self l ls, hb, rfl⟩, ?_⟩
        intro x hx hxnb
        rcases List.mem_cons.mp hx with h1 | h1
        · subst h1; omega
        · exact absurd ((minNonblankIndent_eq_none_iff ls).mp hmm x h1) hxnb
      | some k =>
        rw [hmm] at h
        simp only [obMin, Option.some.injEq] at h
        obtain ⟨⟨w, hw, hwnb, hwlw⟩, hlb⟩ := ih k hmm
        by_cases hc : leadingWhitespace l ≤ k
        · rw [if_pos hc] at h
          refine ⟨⟨l, List.mem_cons_self l ls, hb, h⟩, ?_⟩
          intro x hx hxnb
          rcases List.mem_cons.mp hx with h1 | h1
          · subst h1; omega
          · have := hlb x h1 hxnb; omega
        · rw [if_neg hc] at h
          refine ⟨⟨w, List.mem_cons_of_mem l hw, hwnb, by omega⟩, ?_⟩
          intro x hx hxnb
          rcases List.mem_cons.mp hx with h1 | h1
          · subst h1; omega
          · have := hlb x h1 hxnb; omega

theorem stripIndent_not_mem (c : Char) (m : Nat) (l : GoStr) (h : c ∉ l) :
    c ∉ stripIndent m l := by
  unfold stripIndent
  split
  · exact fun hc => h (List.drop_subset m l hc)
  · exact h

theorem stripIndent_nonblank (m : Nat) (l : GoStr)
    (hm : m ≤ leadingWhitespace l) (h : ¬(trimSpace l).isEmpty = true) :
    ¬(trimSpace (stripIndent m l)).isEmpty = true := by
  intro hcontra
  apply h
  rw [trimSpace_isEmpty_iff] at hcontra ⊢
  intro c hc
  have hlen : m ≤ l.length := le_trans hm (leadingWhitespace_le_length l)
  rw [stripIndent, if_pos hlen] at hcontra
  rw [← List.take_append_drop m l] at hc
  rcases List.mem_append.mp hc with h1 | h1
  · exact takeWhile_leadingWhitespace m l hm c h1
  · exact hcontra c h1

theorem stripIndent_lw (m : Nat) (l : GoStr) (hm : m ≤ leadingWhitespace l) :
    leadingWhitespace (stripIndent m l) + m = leadingWhitespace l := by
  have hlen : m ≤ l.length := le_trans hm (leadingWhitespace_le_length l)
  rw [stripIndent, if_pos hlen]
  exact leadingWhitespace_drop m l hm

theorem stripIndent_zero_fun : stripIndent 0 = id :=
  funext stripIndent_zero

theorem goSplit_dedentMarkdown (src : GoStr) :
    goSplit '\n' (dedentMarkdown src) =
      (goSplit '\n' src).map
        (stripIndent ((minNonblankIndent (goSplit '\n' src)).getD 0)) := by
  rw [dedentMarkdown_eq]
  cases h : minNonblankIndent (goSplit '\n' src) with
  | none => simp [stripIndent_zero_fun]
  | some m =>
    cases m with
    | zero => simp [stripIndent_zero_fun]
    | succ k =>
      simp only [Option.getD_some]
      exact goSplit_goJoin '\n' _
        (by
          intro hcontra
          exact goSplit_ne_nil '\n' src (List.map_eq_nil.mp hcontra))
        (by
          intro p hp
          obtain ⟨l, hl, rfl⟩ := List.mem_map.mp hp
          exact stripIndent_not_mem '\n' (k + 1) l
            (mem_goSplit_not_mem '\n' src l hl))

/-- Claim C5: `dedentMarkdown` splits its input into lines, computes the
minimum leading-whitespace count over the non-blank lines, strips exactly
that many leading characters from each line that is at least that long and
leaves shorter lines untouched; the number of lines is preserved and every
non-blank line's indentation drops by exactly the minimum, preserving
relative indentation. -/
theorem dedent_strips_min_indent (src : GoStr) :
    goSplit '\n' (dedentMarkdown src) =
      (goSplit '\n' src).map
        (stripIndent ((minNonblankIndent (goSplit '\n' src)).getD 0)) ∧
    (goSplit '\n' (dedentMarkdown src)).length =
      (goSplit '\n' src).length ∧
    (∀ l ∈ goSplit '\n' src, ¬(trimSpace l).isEmpty = true →
      leadingWhitespace
          (stripIndent ((minNonblankIndent (goSplit '\n' src)).getD 0) l) +
        (minNonblankIndent (goSplit '\n' src)).getD 0 = leadingWhitespace l) := by
  refine ⟨goSplit_dedentMarkdown src, ?_, ?_⟩
  · rw [goSplit_dedentMarkdown src, List.length_map]
  · intro l hl hnb
    cases h : minNonblankIndent (goSplit '\n' src) with
    | none =>
      exact absurd ((minNonblankIndent_eq_none_iff _).mp h l hl) hnb
    | some m =>
      simp only [Option.getD_some]
      exact stripIndent_lw m l
        ((minNonblankIndent_spec _ m h).2 l hl hnb)

theorem dedent_strips_min_indent_w :
    leadingWhitespace
        (stripIndent
          ((minNonblankIndent (goSplit '\n' ("  a\n   b".toList))).getD 0)
          ("  a".toList)) +
      (minNonblankIndent (goSplit '\n' ("  a\n   b".toList))).getD 0 =
      leadingWhitespace ("  a".toList) :=
  (dedent_strips_min_indent ("  a\n   b".toList)).2.2
    ("  a".toList) (by decide) (by decide)

/-- Claim C9: `dedentMarkdown` is idempotent. -/
theorem dedentMarkdown_idempotent (src : GoStr) :
    dedentMarkdown (dedentMarkdown src) = dedentMarkdown src := by
  cases h : minNonblankIndent (goSplit '\n' src) with
  | none =>
    have heq : dedentMarkdown src = src := by rw [dedentMarkdown_eq, h]
    rw [heq]
    exact heq
  | some m =>
    cases m with
    | zero =>
      have heq : dedentMarkdown src = src := by rw [dedentMarkdown_eq, h]
      rw [heq]
      exact heq
    | succ k =>
      obtain ⟨⟨w, hw, hwnb, hwlw⟩, hlb⟩ :=
        minNonblankIndent_spec (goSplit '\n' src) (k + 1) h
      have heq : dedentMarkdown src =
          goJoin '\n' ((goSplit '\n' src).map (stripIndent (k + 1))) := by
        rw [dedentMarkdown_eq, h]
      have hsplit : goSplit '\n'
          (goJoin '\n' ((goSplit '\n' src).map (stripIndent (k + 1)))) =
          (goSplit '\n' src).map (stripIndent (k + 1)) :=
        goSplit_goJoin '\n' _
          (by
            intro hcontra
            exact goSplit_ne_nil '\n' src (List.map_eq_nil.mp hcontra))
          (by
            intro p hp
            obtain ⟨l, hl, rfl⟩ := List.mem_map.mp hp
            exact stripIndent_not_mem '\n' (k + 1) l
              (mem_goSplit_not_mem '\n' src l hl))
      have hwm : k + 1 ≤ leadingWhitespace w := hwlw.ge
      have hwnb' : ¬(trimSpace (stripIndent (k + 1) w)).isEmpty = true :=
        stripIndent_nonblank (k + 1) w hwm hwnb
      have hwlw' : leadingWhitespace (stripIndent (k + 1) w) = 0 := by
        have := stripIndent_lw (k + 1) w hwm
        omega
      have hzero : minNonblankIndent
          ((goSplit '\n' src).map (stripIndent (k + 1))) = some 0 := by
        cases hz : minNonblankIndent ((goSplit '\n' src).map (stripIndent (k + 1))) with
        | none =>
          exact absurd
            ((minNonblankIndent_eq_none_iff _).mp hz _
              (List.mem_map_of_mem _ hw)) hwnb'
        | some j =>
          obtain ⟨_, hlb'⟩ := minNonblankIndent_spec _ j hz
          have hj := hlb' (stripIndent (k + 1) w)
            (List.mem_map_of_mem _ hw) hwnb'
          rw [hwlw'] at hj
          have : j = 0 := Nat.le_zero.mp hj
          rw [this]
      rw [heq, dedentMarkdown_eq, hsplit, hzero]

/-! ### First-sentence summaries (`docMarkdown`, `summaryText`) -/

/-- `strings.Index` restricted to what the renderer needs: position of the
first occurrence of `pat`, `none` when absent. -/
def goIndexAux (pat : GoStr) : GoStr → Option Nat
  | [] => if pat.isEmpty then some 0 else none
  | c :: cs =>
    if pat.isPrefixOf (c :: cs) then some 0
    else (goIndexAux pat cs).map (· + 1)

def goIndexOf (s pat : GoStr) : Option Nat := goIndexAux pat s

/-- `docMarkdown` from the renderer: trim the documentation text, then dedent
it (empty text renders as nothing). -/
def docMarkdown (text : GoStr) : GoStr :=
  let trimmed := trimSpace text
  if trimmed.isEmpty then [] else dedentMarkdown trimmed

/-- `summaryText` from the renderer: collapse the doc text to one line and
truncate it after the first ". " (keeping the period). -/
def summaryText (text : GoStr) : GoStr :=
  let md := docMarkdown text
  if md.isEmpty then []
  else
    let md2 := md.map (fun c => if c = '\n' then ' ' else c)
    match goIndexOf md2 ('.' :: ' ' :: []) with
    | some idx => trimSpace (md2.take (idx + 1))
    | none => trimSpace md2

/-- Claim C4 read literally: dedent the text (without first trimming it),
collapse newlines to spaces, truncate after the first ". ", trim. -/
def summaryTextClaimC4 (text : GoStr) : GoStr :=
  let c := (dedentMarkdown text).map (fun ch => if ch = '\n' then ' ' else ch)
  match goIndexOf c ('.' :: ' ' :: []) with
  | some idx => trimSpace (c.take (idx + 1))
  | none => trimSpace c

/-- Claim C4 as amended: the text is trimmed of surrounding whitespace
before being dedented; then collapse, truncate after the first ". ", trim. -/
def summaryTextSpecC4 (text : GoStr) : GoStr :=
  let c := (dedentMarkdown (trimSpace text)).map
    (fun ch => if ch = '\n' then ' ' else ch)
  match goIndexOf c ('.' :: ' ' :: []) with
  | some idx => trimSpace (c.take (idx + 1))
  | none => trimSpace c

/-- Claim C4 counterexample: on `"  a\n b"` the code trims before dedenting
(so nothing is stripped and the two collapsed spaces survive), while the
claim's dedent-first order strips one column and yields a single space. -/
theorem summaryText_claim_cex :
    summaryText ("  a\n b".toList) = ("a  b".toList) ∧
    summaryTextClaimC4 ("  a\n b".toList) = ("a b".toList) ∧
    summaryText ("  a\n b".toList) ≠ summaryTextClaimC4 ("  a\n b".toList) := by
  refine ⟨by decide, by decide, by decide⟩

/-- Claim C4 (amended): the summary equals the documentation text after
trimming surrounding whitespace, dedenting, collapsing newlines to spaces,
truncating at the first ". " with the period kept, and trimming; with no
". " the whole collapsed trimmed text is used.  `"Does X. Does Y."`
summarizes to exactly `"Does X."`. -/
theorem summaryText_first_sentence :
    (∀ text, summaryText text = summaryTextSpecC4 text) ∧
    summaryText ("Does X. Does Y.".toList) = ("Does X.".toList) := by
  constructor
  · intro text
    by_cases h : (trimSpace text).isEmpty = true
    · have h' : trimSpace text = [] := by
        cases hh : trimSpace text with
        | nil => rfl
        | cons a as => rw [hh] at h; simp [List.isEmpty] at h
      simp only [summaryText, summaryTextSpecC4, docMarkdown, h']
      rfl
    · simp only [summaryText, summaryTextSpecC4, docMarkdown, if_neg h]
      by_cases h2 : (dedentMarkdown (trimSpace text)).isEmpty = true
      · have h2' : dedentMarkdown (trimSpace text) = [] := by
          cases hh : dedentMarkdown (trimSpace text) with
          | nil => rfl
          | cons a as => rw [hh] at h2; simp [List.isEmpty] at h2
        rw [h2']
        rfl
      · rw [if_neg h2]
  · decide

/-! ### `splitSymbol` -/

/-- `splitSymbol`: split a symbol specification at the first dot into the
symbol and the (possibly dotted) method part. -/
def splitSymbol (spec : GoStr) : GoStr × GoStr :=
  if spec.isEmpty then ([], [])
  else
    match goSplit '.' spec with
    | [] => ([], [])
    | [p] => (p, [])
    | p :: q :: rest => (p, goJoin '.' (q :: rest))

/-- Claim C8 counterexample: on `"a."` the method part is empty, yet the
input contains a dot and the symbol part is not the whole input. -/
theorem splitSymbol_claim_cex :
    splitSymbol ("a.".toList) = ("a".toList, []) ∧
    ('.' ∈ ("a.".toList) ∧ ("a".toList) ≠ ("a.".toList)) := by
  refine ⟨by decide, by decide, by decide⟩

/-- Claim C8 (amended): splitting at the first dot is lossless: the symbol
part never contains a dot, and either the input contains no dot (so the
symbol is the whole input and the method is empty), or
`symbol ++ "." ++ method` reconstructs the input exactly — the method part
may be empty when the input's only dot is final. -/
theorem splitSymbol_lossless (spec : GoStr) :
    '.' ∉ (splitSymbol spec).1 ∧
    (((splitSymbol spec).1 = spec ∧ (splitSymbol spec).2 = [] ∧
        '.' ∉ spec) ∨
      (splitSymbol spec).1 ++ '.' :: (splitSymbol spec).2 = spec) := by
  by_cases h : spec.isEmpty = true
  · have h' : spec = [] := by
      cases hh : spec with
      | nil => rfl
      | cons a as => rw [hh] at h; simp [List.isEmpty] at h
    subst h'
    exact ⟨by decide, Or.inl (by decide)⟩
  · have hrecon : goJoin '.' (goSplit '.' spec) = spec := goJoin_goSplit '.' spec
    cases hs : goSplit '.' spec with
    | nil => exact absurd hs (goSplit_ne_nil '.' spec)
    | cons p ps =>
      rw [hs] at hrecon
      have hpfree : '.' ∉ p :=
        mem_goSplit_not_mem '.' spec p (by rw [hs]; exact List.mem_cons_self p ps)
      cases ps with
      | nil =>
        have hv : splitSymbol spec = (p, []) := by
          simp only [splitSymbol, if_neg h, hs]
        have hps : p = spec := by simpa [goJoin] using hrecon
        rw [hv]
        exact ⟨hpfree, Or.inl ⟨hps, rfl, hps ▸ hpfree⟩⟩
      | cons q qs =>
        have hv : splitSymbol spec = (p, goJoin '.' (q :: qs)) := by
          simp only [splitSymbol, if_neg h, hs]
        rw [hv]
        refine ⟨hpfree, Or.inr ?_⟩
        simpa [goJoin] using hrecon

/-! ### The candidate resolver (`singleArgCandidates`, `buildCandidates`) -/

/-- One guess at what the user meant: a package expression plus optional
symbol and method names. -/
structure invocation where
  pkgExpr : GoStr
  symbol : GoStr
  method : GoStr
deriving DecidableEq, Repr

/-- `startsWithUpper`: first rune upper-case (`unicode.IsUpper`, modelled by
`Char.isUpper`; the two agree on ASCII arguments). -/
def startsWithUpper (s : GoStr) : Bool :=
  match s with
  | [] => false
  | c :: _ => c.isUpper

/-- `strings.ContainsAny(arg, "/\\")`. -/
def containsPathSep (s : GoStr) : Bool :=
  s.any (fun c => c = '/' || c = '\\')

/-- `parseCompound`: for every dot position with a non-empty prefix
(`pkgExpr == ""` only at position 0), split into package prefix and
symbol/method suffix. -/
def parseCompound (arg : GoStr) : List invocation :=
  (List.range arg.length).filterMap (fun i =>
    if arg.get? i = some '.' ∧ i ≠ 0 then
      some { pkgExpr := arg.take i
             symbol := (splitSymbol (arg.drop (i + 1))).1
             method := (splitSymbol (arg.drop (i + 1))).2 }
    else none)

/-- The key the `seen` map of `singleArgCandidates` uses:
`pkgExpr + "|" + symbol + "|" + method`, built from the candidate as passed
to `add` (before the empty-expression normalization). -/
def candKey (c : invocation) : GoStr :=
  c.pkgExpr ++ '|' :: c.symbol ++ '|' :: c.method

/-- The empty-package-expression normalization `add` applies when storing a
candidate. -/
def normalizeCand (c : invocation) : invocation :=
  if c.pkgExpr.isEmpty then { c with pkgExpr := ['.'] } else c

/-- The `add` closure of `singleArgCandidates`: state is the list of seen
keys plus the accumulated candidates. -/
def addCand (st : List GoStr × List invocation) (c : invocation) :
    List GoStr × List invocation :=
  if st.1.contains (candKey c) then st
  else (st.1 ++ [candKey c], st.2 ++ [normalizeCand c])

/-- `singleArgCandidates`: the ordered, key-deduplicated candidate list for
one positional argument. -/
def singleArgCandidates (arg : GoStr) : List invocation :=
  let st0 : List GoStr × List invocation := ([], [])
  let st1 :=
    if startsWithUpper arg && !containsPathSep arg then
      addCand st0
        { pkgExpr := ['.'], symbol := (splitSymbol arg).1,
          method := (splitSymbol arg).2 }
    else st0
  let st2 := addCand st1 { pkgExpr := arg, symbol := [], method := [] }
  let st3 :=
    if arg.contains '.' then (parseCompound arg).foldl addCand st2 else st2
  let st4 := addCand st3
    { pkgExpr := ['.'], symbol := (splitSymbol arg).1,
      method := (splitSymbol arg).2 }
  st4.2

/-- `buildCandidates`: zero arguments means the current directory, one
argument goes through `singleArgCandidates`, two are package plus
symbol/method, more are an error. -/
def buildCandidates (args : List GoStr) : Except GoStr (List invocation) :=
  match args with
  | [] => Except.ok [{ pkgExpr := ['.'], symbol := [], method := [] }]
  | [a] => Except.ok (singleArgCandidates a)
  | [a, b] => Except.ok
      [{ pkgExpr := a, symbol := (splitSymbol b).1,
         method := (splitSymbol b).2 }]
  | _ => Except.error ("too many positional arguments".toList)

/-- The candidate list claim C3 describes, before deduplication: the
upper-case local guess, the whole argument as a package, the compound
splits, and the whole argument as a local symbol. -/
def rawCandidatesC3 (arg : GoStr) : List invocation :=
  (if startsWithUpper arg && !containsPathSep arg then
      [{ pkgExpr := ['.'], symbol := (splitSymbol arg).1,
         method := (splitSymbol arg).2 }]
    else []) ++
  [{ pkgExpr := arg, symbol := [], method := [] }] ++
  (if arg.contains '.' then parseCompound arg else []) ++
  [{ pkgExpr := ['.'], symbol := (splitSymbol arg).1,
     method := (splitSymbol arg).2 }]

/-- First-occurrence deduplication by the `"p|s|m"` key. -/
def dedupByKey (seen : List GoStr) : List invocation → List invocation
  | [] => []
  | c :: cs =>
    if seen.contains (candKey c) then dedupByKey seen cs
    else c :: dedupByKey (seen ++ [candKey c]) cs

theorem foldl_addCand (reqs : List invocation)
    (st : List GoStr × List invocation) :
    reqs.foldl addCand st =
      (st.1 ++ (dedupByKey st.1 reqs).map candKey,
       st.2 ++ (dedupByKey st.1 reqs).map normalizeCand) := by
  induction reqs generalizing st with
  | nil => simp [dedupByKey]
  | cons c cs ih =>
    simp only [List.foldl_cons, dedupByKey]
    by_cases h : st.1.contains (candKey c) = true
    · have ha : addCand st c = st := by rw [addCand, if_pos h]
      rw [if_pos h, ha, ih]
    · have ha : addCand st c =
          (st.1 ++ [candKey c], st.2 ++ [normalizeCand c]) := by
        rw [addCand, if_neg h]
      rw [if_neg h, ha, ih]
      simp

/-- Claim C3 counterexample: for the empty argument the key of the raw
empty-expression candidate (`"||"`) differs from the key of the normalized
local candidate (`".||"`), so the same `(". ", "", "")` triple is emitted
twice — the output is not deduplicated by the exact triple. -/
theorem singleArgCandidates_claim_cex :
    singleArgCandidates ([] : GoStr) =
      [{ pkgExpr := ['.'], symbol := [], method := [] },
       { pkgExpr := ['.'], symbol := [], method := [] }] ∧
    ¬ (singleArgCandidates ([] : GoStr)).Nodup := by
  exact ⟨by decide, by decide⟩

/-- Claim C3 (amended): `singleArgCandidates` produces exactly the ordered
list claim C3 describes, except that deduplication uses the string key
`pkgExpr + "|" + symbol + "|" + method` computed before the empty
expression is replaced by `"."` (so an empty-expression candidate and the
corresponding `"."` candidate do not deduplicate against each other, and
triples whose `"|"`-joined renderings collide are conflated). -/
theorem singleArgCandidates_eq_dedup (arg : GoStr) :
    singleArgCandidates arg =
      (dedupByKey [] (rawCandidatesC3 arg)).map normalizeCand := by
  have h1 : singleArgCandidates arg =
      ((rawCandidatesC3 arg).foldl addCand ([], [])).2 := by
    unfold singleArgCandidates rawCandidatesC3
    by_cases hu : (startsWithUpper arg && !containsPathSep arg) = true
    · by_cases hd : arg.contains '.' = true
      · have hd' : '.' ∈ arg := by simpa using hd
        simp [hu, hd', List.foldl_append]
      · have hd' : ¬ ('.' ∈ arg) := by simpa using hd
        simp [hu, hd', List.foldl_append]
    · by_cases hd : arg.contains '.' = true
      · have hd' : '.' ∈ arg := by simpa using hd
        simp [hu, hd', List.foldl_append]
      · have hd' : ¬ ('.' ∈ arg) := by simpa using hd
        simp [hu, hd', List.foldl_append]
  rw [h1, foldl_addCand]
  simp

theorem normalizeCand_pkgExpr_ne_nil (c : invocation) :
    (normalizeCand c).pkgExpr.isEmpty = false := by
  unfold normalizeCand
  by_cases h : c.pkgExpr.isEmpty = true
  · rw [if_pos h]; rfl
  · rw [if_neg h]
    cases hh : c.pkgExpr.isEmpty with
    | false => rfl
    | true => exact absurd hh h

/-- Claim C10 counterexample: with two positional arguments the first is
taken verbatim as the package expression; an empty first argument yields a
candidate whose package expression is empty, not `"."`. -/
theorem buildCandidates_claim_cex :
    buildCandidates [([] : GoStr), ("X".toList)] =
      Except.ok [{ pkgExpr := [], symbol := ("X".toList), method := [] }] ∧
    ({ pkgExpr := ([] : GoStr), symbol := ("X".toList),
       method := [] } : invocation).pkgExpr = [] := by
  exact ⟨rfl, rfl⟩

/-- Claim C10 (amended): every candidate built from zero or one positional
arguments has a non-empty package expression (the empty expression is
replaced by `"."` inside `add`); with two arguments the package expression
is the first argument verbatim and may be empty (the package resolver, not
the candidate builder, later maps `""` to `"."`). -/
theorem buildCandidates_pkgExpr_spec :
    (∀ args cands, args.length ≤ 1 →
      buildCandidates args = Except.ok cands →
      ∀ c ∈ cands, c.pkgExpr.isEmpty = false) ∧
    (∀ a b, buildCandidates [a, b] =
      Except.ok [{ pkgExpr := a, symbol := (splitSymbol b).1,
                   method := (splitSymbol b).2 }]) := by
  constructor
  · intro args cands hlen hok c hc
    match args with
    | [] =>
      simp only [buildCandidates, Except.ok.injEq] at hok
      rw [← hok] at hc
      rcases List.mem_singleton.mp hc with rfl
      rfl
    | [a] =>
      simp only [buildCandidates, Except.ok.injEq] at hok
      rw [← hok, singleArgCandidates_eq_dedup] at hc
      obtain ⟨c', _, rfl⟩ := List.mem_map.mp hc
      exact normalizeCand_pkgExpr_ne_nil c'
    | _ :: _ :: _ => simp at hlen
  · intro a b
    rfl

theorem buildCandidates_pkgExpr_spec_w :
    ({ pkgExpr := ['.'], symbol := ("Foo".toList),
       method := [] } : invocation).pkgExpr.isEmpty = false :=
  buildCandidates_pkgExpr_spec.1 ["Foo".toList]
    (singleArgCandidates ("Foo".toList)) (by decide) rfl
    { pkgExpr := ['.'], symbol := ("Foo".toList), method := [] }
    (by decide)

/-! ### The package resolver (`loadPackage`, `resolvePackage`) -/

/-- The part of an `x/tools` package the resolver inspects: its import path
and its error list. -/
structure pkgInfo where
  pkgPath : GoStr
  errors : List GoStr
deriving DecidableEq, Repr

/-- The errors the loader and resolver construct: the external loader error,
`"no Go packages matched %q"`, the first package error, and
`"could not resolve package path for %q"`. -/
inductive loadError where
  | external (msg : GoStr)
  | noMatch (pattern : GoStr)
  | pkgError (msg : GoStr)
  | unresolved (expr : GoStr)
deriving DecidableEq, Repr

/-- `loadPackage`: run the external `packages.Load` (the `load` parameter),
fail when it errs, when no package matched, or when the first matched
package carries errors (surfacing `pkg.Errors[0]`). -/
def loadPackage (load : GoStr → Except GoStr (List pkgInfo))
    (pattern : GoStr) : Except loadError pkgInfo :=
  match load pattern with
  | Except.error e => Except.error (loadError.external e)
  | Except.ok [] => Except.error (loadError.noMatch pattern)
  | Except.ok (pkg :: _) =>
    match pkg.errors with
    | e :: _ => Except.error (loadError.pkgError e)
    | [] => Except.ok pkg

/-- Go's `<` on strings, at rune granularity. -/
def goStrLt : GoStr → GoStr → Bool
  | [], [] => false
  | [], _ :: _ => true
  | _ :: _, [] => false
  | a :: as, b :: bs => if a = b then goStrLt as bs else decide (a.val < b.val)

/-- `matchStdSuffix` over the process-wide std package list; `none` models
`stdErr != nil`.  Picks the lexicographically smallest path equal to the
argument or ending in `"/" + argument`. -/
def matchStdSuffix (std : Option (List GoStr)) (arg : GoStr) : GoStr :=
  if arg.isEmpty then []
  else
    match std with
    | none => []
    | some paths =>
      paths.foldl (fun best path =>
        if path = arg || List.isSuffixOf ('/' :: arg) path then
          if best.isEmpty || goStrLt path best then path else best
        else best) []

/-- The candidate loop of `resolvePackage`: skip empty candidates, return
the first load that succeeds, drop every load error. -/
def resolveLoop (load : GoStr → Except GoStr (List pkgInfo)) :
    List GoStr → Option pkgInfo
  | [] => none
  | c :: cs =>
    if c.isEmpty then resolveLoop load cs
    else
      match loadPackage load c with
      | Except.ok p => some p
      | Except.error _ => resolveLoop load cs

/-- `resolvePackage`: try the expression verbatim (empty becomes `"."`),
then the std-suffix match, else the generic could-not-resolve error. -/
def resolvePackage (load : GoStr → Except GoStr (List pkgInfo))
    (std : Option (List GoStr)) (expr : GoStr) : Except loadError pkgInfo :=
  let tryList := if expr.isEmpty then [['.']] else [expr]
  match resolveLoop load tryList with
  | some p => Except.ok p
  | none =>
    let m := matchStdSuffix std expr
    if ¬ m.isEmpty then loadPackage load m
    else Except.error (loadError.unresolved expr)

/-- A loader whose every call fails with the external error `"boom"`. -/
def alwaysFailLoader : GoStr → Except GoStr (List pkgInfo) :=
  fun _ => Except.error ("boom".toList)

/-- Claim C2 counterexample: when the verbatim load fails and the std
suffix search yields nothing, the underlying error (`"boom"`) is discarded
and the generic could-not-resolve error is returned instead. -/
theorem resolvePackage_claim_cex :
    resolvePackage alwaysFailLoader (some []) ("x".toList) =
      Except.error (loadError.unresolved ("x".toList)) ∧
    loadError.unresolved ("x".toList) ≠
      loadError.external ("boom".toList) := by
  exact ⟨rfl, by decide⟩

/-- Claim C2 (amended): when the verbatim load attempt fails and the
standard-library suffix search yields nothing, `resolvePackage` discards
the underlying load error and returns the generic
`could not resolve package path for %q` error; when the suffix search does
yield a match, the result of loading that match — including its error, if
any — is returned verbatim. -/
theorem resolvePackage_error_spec
    (load : GoStr → Except GoStr (List pkgInfo))
    (std : Option (List GoStr)) (expr : GoStr) (e : loadError)
    (hfail : loadPackage load (if expr.isEmpty then ['.'] else expr) =
      Except.error e) :
    (matchStdSuffix std expr = [] →
      resolvePackage load std expr =
        Except.error (loadError.unresolved expr)) ∧
    (¬ matchStdSuffix std expr = [] →
      resolvePackage load std expr =
        loadPackage load (matchStdSuffix std expr)) := by
  have hloop : resolveLoop load (if expr.isEmpty then [['.']] else [expr]) =
      none := by
    by_cases he : expr.isEmpty = true
    · rw [if_pos he]
      rw [if_pos he] at hfail
      simp [resolveLoop, hfail]
    · rw [if_neg he]
      rw [if_neg he] at hfail
      simp [resolveLoop, he, hfail]
  constructor
  · intro hm
    simp only [resolvePackage, hloop, hm]
    rfl
  · intro hm
    have hm' : (matchStdSuffix std expr).isEmpty = false := by
      cases hmm : matchStdSuffix std expr with
      | nil => exact absurd hmm hm
      | cons a as => rfl
    simp only [resolvePackage, hloop, hm']
    simp

theorem resolvePackage_error_spec_w :
    resolvePackage alwaysFailLoader (some []) ("x".toList) =
      Except.error (loadError.unresolved ("x".toList)) :=
  (resolvePackage_error_spec alwaysFailLoader (some []) ("x".toList)
    (loadError.external ("boom".toList)) rfl).1 rfl

/-! ### The Markdown renderer's symbol view (`renderSymbol`) -/

/-- The flat per-invocation configuration record. -/
structure options where
  all : Bool
  caseSensitive : Bool
  showCmd : Bool
  short : Bool
  showSource : Bool
  unexported : Bool
  outputPath : GoStr
  inplace : Bool
  includeMainVars : Bool
  includeMainFuncs : Bool
deriving DecidableEq, Repr

/-- A `doc.Value`: a const or var group with its names and doc text. -/
structure DocValue where
  names : List GoStr
  doc : GoStr
deriving DecidableEq, Repr

/-- A `doc.Func`: a function or method with its name and doc text. -/
structure DocFunc where
  name : GoStr
  doc : GoStr
deriving DecidableEq, Repr

/-- A `doc.Type` with its associated constants, variables, constructor
functions, and methods. -/
structure DocType where
  name : GoStr
  doc : GoStr
  consts : List DocValue
  vars : List DocValue
  funcs : List DocFunc
  methods : List DocFunc
deriving DecidableEq, Repr

/-- A loaded `doc.Package` as the renderer reads it. -/
structure DocPackage where
  name : GoStr
  importPath : GoStr
  doc : GoStr
  consts : List DocValue
  vars : List DocValue
  funcs : List DocFunc
  types : List DocType
deriving DecidableEq, Repr

/-- `strings.EqualFold`, modelled by simple lower-case folding (the two
agree on ASCII names). -/
def goEqualFold (a b : GoStr) : Bool :=
  a.map Char.toLower == b.map Char.toLower

/-- `matchName`: exact comparison when `caseSensitive`, else case folding. -/
def matchName (o : options) (name target : GoStr) : Bool :=
  if o.caseSensitive then name == target else goEqualFold name target

/-- `valueHasName`: any of the value group's names matches. -/
def valueHasName (o : options) (v : DocValue) (name : GoStr) : Bool :=
  v.names.any (fun n => matchName o n name)

/-- One render call `renderSymbol` makes.  The bodies of
`renderTypeDoc`/`renderFuncDoc`/`renderValueDoc` delegate to the external
`go/format` printer, so the output sink is modelled as the ordered list of
these calls. -/
inductive RenderEvent where
  | typeDoc (t : DocType)
  | funcDoc (f : DocFunc) (receiver : GoStr)
  | valueDoc (v : DocValue)
deriving DecidableEq, Repr

/-- `renderSymbol`: match the symbol against the package's types, top-level
functions, constants and variables, and each type's constants, variables
and constructor functions (constructors are rendered with the type name as
receiver, mirroring `renderFuncDoc(w, f, t.Name)`); the Bool is the
`rendered` flag. -/
def renderSymbol (o : options) (p : DocPackage) (symbol : GoStr) :
    List RenderEvent × Bool :=
  let s0 : List RenderEvent × Bool := ([], false)
  let s1 := p.types.foldl (fun s t =>
    if matchName o t.name symbol then (s.1 ++ [RenderEvent.typeDoc t], true)
    else s) s0
  let s2 := p.funcs.foldl (fun s f =>
    if matchName o f.name symbol then (s.1 ++ [RenderEvent.funcDoc f []], true)
    else s) s1
  let s3 := p.consts.foldl (fun s v =>
    if valueHasName o v symbol then (s.1 ++ [RenderEvent.valueDoc v], true)
    else s) s2
  let s4 := p.vars.foldl (fun s v =>
    if valueHasName o v symbol then (s.1 ++ [RenderEvent.valueDoc v], true)
    else s) s3
  let s5 := p.types.foldl (fun s t =>
    let sa := t.consts.foldl (fun s v =>
      if valueHasName o v symbol then (s.1 ++ [RenderEvent.valueDoc v], true)
      else s) s
    let sb := t.vars.foldl (fun s v =>
      if valueHasName o v symbol then (s.1 ++ [RenderEvent.valueDoc v], true)
      else s) sa
    t.funcs.foldl (fun s f =>
      if matchName o f.name symbol then
        (s.1 ++ [RenderEvent.funcDoc f t.name], true)
      else s) sb) s4
  s5

/-- The render calls the symbol view makes, per claim C1's enumeration of
the matched kinds (without methods), in the order the code visits them. -/
def symbolRenderList (o : options) (p : DocPackage) (symbol : GoStr) :
    List RenderEvent :=
  ((p.types.filter (fun t => matchName o t.name symbol)).map
      RenderEvent.typeDoc) ++
  ((p.funcs.filter (fun f => matchName o f.name symbol)).map
      (fun f => RenderEvent.funcDoc f [])) ++
  ((p.consts.filter (fun v => valueHasName o v symbol)).map
      RenderEvent.valueDoc) ++
  ((p.vars.filter (fun v => valueHasName o v symbol)).map
      RenderEvent.valueDoc) ++
  (p.types.bind (fun t =>
    ((t.consts.filter (fun v => valueHasName o v symbol)).map
        RenderEvent.valueDoc) ++
    ((t.vars.filter (fun v => valueHasName o v symbol)).map
        RenderEvent.valueDoc) ++
    ((t.funcs.filter (fun f => matchName o f.name symbol)).map
        (fun f => RenderEvent.funcDoc f t.name))))

theorem not_isEmpty_append {α : Type} (u v : List α) :
    (!(u ++ v).isEmpty) = (!u.isEmpty || !v.isEmpty) := by
  cases u <;> cases v <;> simp

theorem not_isEmpty_map {α β : Type} (g : α → β) (l : List α) :
    (!(l.map g).isEmpty) = !l.isEmpty := by
  cases l <;> simp

theorem foldl_render_filter {α : Type} (l : List α) (f : α → Bool)
    (g : α → RenderEvent) (acc : List RenderEvent) (b : Bool) :
    l.foldl (fun s x => if f x then (s.1 ++ [g x], true) else s) (acc, b) =
      (acc ++ (l.filter f).map g, b || !(l.filter f).isEmpty) := by
  induction l generalizing acc b with
  | nil => simp
  | cons x xs ih =>
    by_cases h : f x = true
    · simp only [List.foldl_cons, if_pos h, List.filter_cons, h, if_true]
      rw [ih]
      simp
    · simp only [List.foldl_cons, if_neg h, List.filter_cons, h]
      rw [ih]
      simp [h]

theorem foldl_render_flat {α : Type} (l : List α)
    (h : α → List RenderEvent)
    (step : List RenderEvent × Bool → α → List RenderEvent × Bool)
    (hstep : ∀ s x, step s x = (s.1 ++ h x, s.2 || !(h x).isEmpty))
    (acc : List RenderEvent) (b : Bool) :
    l.foldl step (acc, b) = (acc ++ l.bind h, b || !(l.bind h).isEmpty) := by
  induction l generalizing acc b with
  | nil => simp
  | cons x xs ih =>
    simp only [List.foldl_cons, hstep]
    rw [ih]
    simp [List.append_assoc, Bool.or_assoc, not_isEmpty_append]

/-- Claim C1 counterexample: a package whose only declaration is a type `T`
with a method `M`: the symbol view matches the method name against nothing,
renders nothing, and returns false, although a type's method name matches
the symbol. -/
theorem renderSymbol_claim_cex :
    ((DocPackage.mk ("p".toList) [] [] [] [] []
        [DocType.mk ("T".toList) [] [] [] []
          [DocFunc.mk ("M".toList) []]]).types.any
      (fun t => t.methods.any (fun m =>
        matchName (options.mk false false false false false false []
          false false false) m.name ("M".toList)))) = true ∧
    (renderSymbol
      (options.mk false false false false false false [] false false false)
      (DocPackage.mk ("p".toList) [] [] [] [] []
        [DocType.mk ("T".toList) [] [] [] []
          [DocFunc.mk ("M".toList) []]])
      ("M".toList)).2 = false ∧
    (renderSymbol
      (options.mk false false false false false false [] false false false)
      (DocPackage.mk ("p".toList) [] [] [] [] []
        [DocType.mk ("T".toList) [] [] [] []
          [DocFunc.mk ("M".toList) []]])
      ("M".toList)).1 = [] := by
  refine ⟨by decide, by decide, by decide⟩

/-- Claim C1 (amended): the symbol view matches the name against every
type, every top-level function, every top-level constant and variable,
and, for each type, its associated constants, variables and constructor
functions — but not its methods (those are only reachable through the
method view); every structural match is rendered, in code order, and the
view returns true iff at least one match was rendered. -/
theorem renderSymbol_spec (o : options) (p : DocPackage) (symbol : GoStr) :
    renderSymbol o p symbol =
      (symbolRenderList o p symbol,
       !(symbolRenderList o p symbol).isEmpty) := by
  have hstep : ∀ (s : List RenderEvent × Bool) (t : DocType),
      (let sa := t.consts.foldl (fun s v =>
        if valueHasName o v symbol then (s.1 ++ [RenderEvent.valueDoc v], true)
        else s) s
      let sb := t.vars.foldl (fun s v =>
        if valueHasName o v symbol then (s.1 ++ [RenderEvent.valueDoc v], true)
        else s) sa
      t.funcs.foldl (fun s f =>
        if matchName o f.name symbol then
          (s.1 ++ [RenderEvent.funcDoc f t.name], true)
        else s) sb) =
      (s.1 ++
        (((t.consts.filter (fun v => valueHasName o v symbol)).map
            RenderEvent.valueDoc) ++
         ((t.vars.filter (fun v => valueHasName o v symbol)).map
            RenderEvent.valueDoc) ++
         ((t.funcs.filter (fun f => matchName o f.name symbol)).map
            (fun f => RenderEvent.funcDoc f t.name))),
       s.2 || !((((t.consts.filter (fun v => valueHasName o v symbol)).map
            RenderEvent.valueDoc) ++
         ((t.vars.filter (fun v => valueHasName o v symbol)).map
            RenderEvent.valueDoc) ++
         ((t.funcs.filter (fun f => matchName o f.name symbol)).map
            (fun f => RenderEvent.funcDoc f t.name)))).isEmpty) := by
    intro s t
    obtain ⟨s1, s2⟩ := s
    simp only [foldl_render_filter]
    simp [List.append_assoc, Bool.or_assoc, not_isEmpty_append, not_isEmpty_map]
  simp only [renderSymbol, symbolRenderList]
  rw [foldl_render_filter, foldl_render_filter, foldl_render_filter,
    foldl_render_filter]
  rw [foldl_render_flat p.types _ _ hstep]
  simp [List.append_assoc, Bool.or_assoc, not_isEmpty_append, not_isEmpty_map]

/-! ### Tree aggregation: `appendTOCAfterDoc` and `buildTOC` -/

/-- The newline padding `appendTOCAfterDoc` inserts between the root
document and the table of contents: nothing when the document already ends
with a blank line, one newline when it ends with a newline, two
otherwise. -/
def tocPad (doc : GoStr) : GoStr :=
  if List.isSuffixOf ('\n' :: '\n' :: []) doc then []
  else if List.isSuffixOf ['\n'] doc then ['\n']
  else ['\n', '\n']

/-- `appendTOCAfterDoc`: return the document when the TOC is empty, the TOC
when the document is empty, else the document padded with newlines followed
by the TOC. -/
def appendTOCAfterDoc (doc toc : GoStr) : GoStr :=
  if toc.isEmpty then doc
  else if doc.isEmpty then toc
  else doc ++ tocPad doc ++ toc

/-- Claim C7 read literally: the root content is adjusted to end with
exactly one blank line — all trailing newlines collapse to one blank
line. -/
def appendTOCClaimC7 (doc toc : GoStr) : GoStr :=
  if toc.isEmpty then doc
  else if doc.isEmpty then toc
  else (doc.reverse.dropWhile (fun c => c = '\n')).reverse ++
    '\n' :: '\n' :: toc

/-- Claim C7 counterexample: a root document ending in three newlines is
passed through untouched (it already ends with `"\n\n"`), so the TOC is
preceded by two blank lines, not exactly one. -/
theorem appendTOC_claim_cex :
    appendTOCAfterDoc ("a\n\n\n".toList) ("t".toList) =
      ("a\n\n\nt".toList) ∧
    appendTOCClaimC7 ("a\n\n\n".toList) ("t".toList) = ("a\n\nt".toList) ∧
    appendTOCAfterDoc ("a\n\n\n".toList) ("t".toList) ≠
      appendTOCClaimC7 ("a\n\n\n".toList) ("t".toList) := by
  refine ⟨by decide, by decide, by decide⟩

theorem isSuffixOf_append_self (s t : GoStr) :
    List.isSuffixOf t (s ++ t) = true := by
  rw [List.isSuffixOf_iff_suffix]
  exact List.suffix_append s t

theorem appendTOC_ends_blank (d : GoStr) :
    List.isSuffixOf ('\n' :: '\n' :: []) (d ++ tocPad d) = true := by
  unfold tocPad
  by_cases h2 : List.isSuffixOf ('\n' :: '\n' :: []) d = true
  · rw [if_pos h2, List.append_nil]
    exact h2
  · rw [if_neg h2]
    by_cases h1 : List.isSuffixOf ['\n'] d = true
    · rw [if_pos h1]
      rw [List.isSuffixOf_iff_suffix] at h1 ⊢
      obtain ⟨s, rfl⟩ := h1
      rw [List.append_assoc]
      simpa using List.suffix_append s ('\n' :: '\n' :: [])
    · rw [if_neg h1]
      exact isSuffixOf_append_self d _

/-- Claim C7 (amended): an empty TOC returns the root content unchanged and
an empty root returns the TOC alone; otherwise the result is the root
content, a padding of at most two newlines (never a removal), and the TOC,
with the padded root ending in at least one blank line — a root that
already ends in several blank lines keeps them all. -/
theorem appendTOC_spec :
    (∀ d, appendTOCAfterDoc d [] = d) ∧
    (∀ t, appendTOCAfterDoc [] t = t) ∧
    (∀ d t, ¬ d = [] → ¬ t = [] →
      appendTOCAfterDoc d t = d ++ tocPad d ++ t ∧
      List.isSuffixOf ('\n' :: '\n' :: []) (d ++ tocPad d) = true ∧
      (tocPad d = [] ∨ tocPad d = ['\n'] ∨ tocPad d = ['\n', '\n'])) := by
  refine ⟨?_, ?_, ?_⟩
  · intro d
    rfl
  · intro t
    by_cases h : t = []
    · subst h; rfl
    · have ht : t.isEmpty = false := by
        cases t with
        | nil => exact absurd rfl h
        | cons a as => rfl
      simp [appendTOCAfterDoc, ht]
  · intro d t hd ht
    have ht' : t.isEmpty = false := by
      cases t with
      | nil => exact absurd rfl ht
      | cons a as => rfl
    have hd' : d.isEmpty = false := by
      cases d with
      | nil => exact absurd rfl hd
      | cons a as => rfl
    refine ⟨by simp [appendTOCAfterDoc, ht', hd'], appendTOC_ends_blank d, ?_⟩
    unfold tocPad
    split_ifs <;> simp

theorem appendTOC_spec_w :
    appendTOCAfterDoc ("a".toList) ("t".toList) =
      ("a".toList) ++ tocPad ("a".toList) ++ ("t".toList) :=
  (appendTOC_spec.2.2 ("a".toList) ("t".toList) (by decide) (by decide)).1

/-- A table-of-contents entry: display title, relative link, summary. -/
structure tocEntry where
  title : GoStr
  link : GoStr
  summary : GoStr
deriving DecidableEq, Repr

/-- `buildTOC`: the `## Packages` section with one bullet per entry.  The
separator before a non-empty summary is written exactly as the source file
has it: the three characters `"â€”"` (the UTF-8 bytes of the
em dash U+2014 mis-decoded as Windows-1252), not the em dash itself. -/
def buildTOC (entries : List tocEntry) : GoStr :=
  if entries.isEmpty then []
  else
    ("## Packages\n\n".toList) ++
    (entries.bind (fun e =>
      if ¬ e.summary.isEmpty then
        ("- [".toList) ++ e.title ++ ("](".toList) ++ e.link ++
          (") â€” ".toList) ++ e.summary ++ ['\n']
      else
        ("- [".toList) ++ e.title ++ ("](".toList) ++ e.link ++
          (")\n".toList))) ++
    ['\n']

/-- Claim C6: at a single entry with a summary, `buildTOC` emits the
`## Packages` section with the bullet's link target `subpkg/README.md`,
but the separator before the summary is the mojibake three-character
sequence `"â€”"`, not the em dash U+2014 the claim (and the
sibling `bulletLine`, which uses a true U+2014) call for. -/
theorem buildTOC_mojibake :
    buildTOC [tocEntry.mk ("subpkg".toList) ("subpkg/README.md".toList)
        ("Hi.".toList)] =
      ("## Packages\n\n- [subpkg](subpkg/README.md) â€” Hi.\n\n".toList) ∧
    ¬ (("â€”".toList) = ("—".toList)) := by
  refine ⟨by decide, by decide⟩

end GoDocMd
